import Mathlib

/-!
Verification of the Moveset Override Resolution Engine of `import_movesets.py`
(pvpoke_tools). The definitions below are a shallow embedding of the function
`generate_moveset_overrides` and of the `__main__` merge/persist block: Python
dicts become association lists keyed by `String`, Python sets become
`Finset String`, the interactive `input()` stream becomes an explicit list of
events (`some n` = a line parsed by `int`, `none` = a line raising
`ValueError`; an exhausted list = end of input, where `input()` raises
`EOFError`), and exceptions that escape the function become `Except` errors.
-/

/-- Result of one record stored in an override dictionary. Mirrors the JSON
objects handled by the script: a `speciesId` plus optional `fastMove`,
`chargedMoves` and `weight` keys (an absent key is `none`). -/
structure OverrideRecord where
  speciesId : String
  fastMove : Option String := none
  chargedMoves : Option (List String) := none
  weight : Option Int := none
deriving DecidableEq, Repr

/-- One entry of `pokemon.json`: a species with its legal move pools. -/
structure PokemonEntry where
  speciesId : String
  fastMoves : List String
  chargedMoves : List String
deriving DecidableEq, Repr

/-- One entry of a rankings file: `moveset` lists the fast move first and the
charged moves after it. -/
structure RankingEntry where
  speciesId : String
  moveset : List String
deriving DecidableEq, Repr

/-- One element of the output list built by `generate_moveset_overrides`. -/
structure Moveset where
  speciesId : String
  fastMove : String
  chargedMoves : List String
  weight : Int
deriving DecidableEq, Repr

/-- A structured rule of a cup definition: an object with optional
`filterType` and `values` keys, as read by `rule.get("filterType")` and
`rule["values"]` / `rule.get("values", [])` in the source. -/
structure FilterRule where
  filterType : Option String := none
  values : Option (List String) := none
deriving DecidableEq, Repr

/-- One entry of a cup definition's `exclude` list: either a bare string or a
dict-shaped rule with optional `filterType`, `values` and `speciesId` keys
(the source inspects exactly those three keys on dict entries). -/
inductive ExcludeEntry where
  | strE (s : String)
  | objE (filterType : Option String) (values : Option (List String))
      (speciesId : Option String)
deriving DecidableEq, Repr

/-- The cup definition found in `gamemaster.json` for the requested cup, with
its optional `include` and `exclude` lists (the source guards both with
`"include" in cup_definition` / `"exclude" in cup_definition`). -/
structure CupDef where
  includeRules : Option (List FilterRule) := none
  excludeRules : Option (List ExcludeEntry) := none
deriving DecidableEq, Repr

/-- Exceptions that can escape the embedded code. `attributeError` is the
`AttributeError` raised by `rule.get(...)` on a bare string; `keyError` is the
`KeyError` raised by `rule["values"]` on an include rule without a `values`
key; `indexError` is the `IndexError` raised by `rank["moveset"][0]` on an
empty moveset; `promptEOFLoop` marks the state in which `input()` raises
`EOFError`, the `except` clause swallows it and the replacement-choice loop
repeats forever (the function never returns from it). -/
inductive GenErr where
  | attributeError
  | keyError
  | indexError
  | promptEOFLoop
deriving DecidableEq, Repr

/-- Python `str.upper()` on move codes: upper-case every character. This is
the executable mirror of `String.toUpper` (which maps `Char.toUpper` over the
characters), written directly on the character list so that proofs can
evaluate it. -/
def strUpper (s : String) : String := String.mk (s.data.map Char.toUpper)

/-- Python `str.lower()` on identifiers: lower-case every character, the
executable mirror of `String.toLower`. -/
def strLower (s : String) : String := String.mk (s.data.map Char.toLower)

/-! ### Python dictionaries as association lists -/

/-- `d[k]` lookup returning `none` for a missing key (`dict.get`): the value
of the first (hence, for dicts, the only) binding of the key. -/
def dictGet {α : Type} : List (String × α) → String → Option α
  | [], _ => none
  | kv :: d, k => if kv.1 = k then some kv.2 else dictGet d k

/-- `k in d` key-membership test on a Python dict: the lookup succeeds. -/
def dictHasKey {α : Type} (d : List (String × α)) (k : String) : Bool :=
  (dictGet d k).isSome

/-- `d[k] = v`: overwrite the binding in place when the key is present,
append it otherwise (Python dicts keep insertion order). -/
def dictInsert {α : Type} (d : List (String × α)) (k : String) (v : α) :
    List (String × α) :=
  if dictHasKey d k then d.map (fun kv => if kv.1 = k then (k, v) else kv)
  else d ++ [(k, v)]

/-- In-place update of the value stored at key `k` (models mutating a field
of the dict entry, e.g. `d[k]["fastMove"] = v`); bindings of other keys are
untouched, and a missing key leaves the dict unchanged. -/
def dictMapAt {α : Type} (d : List (String × α)) (k : String) (f : α → α) :
    List (String × α) :=
  d.map (fun kv => if kv.1 = k then (kv.1, f kv.2) else kv)

/-- `d.update(n)`: set `d[k] = v` for each binding of `n` in order. -/
def dictUpdate {α : Type} (p n : List (String × α)) : List (String × α) :=
  n.foldl (fun acc kv => dictInsert acc kv.1 kv.2) p

/-- The `__main__` persistence merge: a copy of the predefined store updated
with the newly chosen records, new ones overwriting old ones per key. -/
def mergeOverrides (pre newly : List (String × OverrideRecord)) :
    List (String × OverrideRecord) :=
  dictUpdate pre newly

/-! ### Ban and eligibility extraction -/

/-- The banned-move extraction loop (source lines 64-68): for each exclude
entry the code calls `rule.get("filterType")`; on a bare string this raises
`AttributeError`, on a dict it adds the upper-cased `values` to the set when
the filter type is `"move"`. -/
def extractBannedMoves : List ExcludeEntry → Finset String →
    Except GenErr (Finset String)
  | [], acc => Except.ok acc
  | ExcludeEntry.strE _ :: _, _ => Except.error GenErr.attributeError
  | ExcludeEntry.objE ft vs _ :: rest, acc =>
      extractBannedMoves rest
        (if ft = some "move" then
          acc ∪ (((vs.getD []).map strUpper).toFinset)
        else acc)

/-- The include-rule loop (source lines 74-78): rules whose `filterType` is
`"id"` contribute each identifier of `rule["values"]` to the eligible set; a
missing `values` key raises `KeyError`. -/
def processIncludes : List FilterRule → Finset String →
    Except GenErr (Finset String)
  | [], acc => Except.ok acc
  | r :: rest, acc =>
    if r.filterType = some "id" then
      match r.values with
      | none => Except.error GenErr.keyError
      | some vs => processIncludes rest (vs.foldl (fun s v => insert v s) acc)
    else processIncludes rest acc

/-- The exclude-rule loop (source lines 81-88): a bare string is removed from
the eligible set when present; a dict entry is removed only when it carries a
`speciesId` key; every other dict entry is ignored here. -/
def processExcludes (entries : List ExcludeEntry) (elig : Finset String) :
    Finset String :=
  entries.foldl
    (fun s e =>
      match e with
      | ExcludeEntry.strE p => if p ∈ s then s.erase p else s
      | ExcludeEntry.objE _ _ (some sid) =>
          if sid ∈ s then s.erase sid else s
      | ExcludeEntry.objE _ _ none => s)
    elig

/-- Banned moves of a cup: the extraction loop run over the `exclude` list
when it exists, the empty set otherwise. -/
def bannedMovesOf (cup : CupDef) : Except GenErr (Finset String) :=
  match cup.excludeRules with
  | some ex => extractBannedMoves ex ∅
  | none => Except.ok ∅

/-- Eligible identifiers of a cup: the include loop followed by the exclude
loop, each skipped when the corresponding key is absent. -/
def eligibleOf (cup : CupDef) : Except GenErr (Finset String) :=
  match (match cup.includeRules with
         | some inc => processIncludes inc ∅
         | none => Except.ok (∅ : Finset String)) with
  | Except.error e => Except.error e
  | Except.ok e0 =>
      Except.ok (match cup.excludeRules with
                 | some ex => processExcludes ex e0
                 | none => e0)

/-- The dict comprehension at source line 55, keying each pokemon entry by
its `speciesId` (later entries overwrite earlier ones). -/
def buildPokemonDict (l : List PokemonEntry) : List (String × PokemonEntry) :=
  l.foldl (fun d p => dictInsert d p.speciesId p) []

/-! ### The interactive replacement prompt -/

/-- The replacement-choice `while` loop run against a finite input stream:
`some n` is a line `int` parses to `n`, `none` is a line raising
`ValueError` (caught, reprompt). The loop accepts the first in-range number
and returns it with the unread rest of the stream. An exhausted stream is
end of input: `input()` raises `EOFError`, the `except` clause swallows it
and the loop body runs again with nothing changed, so the loop never
terminates; this is modelled by `none`. -/
def promptLoop (len : Nat) : List (Option Int) →
    Option (Int × List (Option Int))
  | [] => none
  | none :: rest => promptLoop len rest
  | some n :: rest =>
      if n < 1 ∨ (len : Int) < n then promptLoop len rest
      else some (n, rest)

/-- One iteration of the replacement-choice `while` loop once the stream is
at end of input: `input()` raises `EOFError` before assigning, the `except`
clause prints a message and continues, so the loop variable `choice` is left
unchanged. -/
def promptIterAtEOF (choice : Int) : Int := choice

/-! ### Session state and decision recording -/

/-- The mutable state threaded through resolution: the predefined override
dict (read by the source but, as proved below, never written), the
newly-chosen override dict, and the unread rest of the interactive input
stream. -/
structure SessState where
  predefined : List (String × OverrideRecord)
  newly : List (String × OverrideRecord)
  stream : List (Option Int)
deriving DecidableEq, Repr

/-- The fast-move recording block (source lines 117-120 and 158-161): only
when the lower-cased identifier is not a key of the predefined dict, create
the newly-chosen record on first touch and set its `fastMove` field. -/
def recordFastChoice (pre newly : List (String × OverrideRecord))
    (sid : String) (fm : String) : List (String × OverrideRecord) :=
  if dictHasKey pre (strLower sid) then newly
  else
    let n := if dictHasKey newly (strLower sid) then newly
             else dictInsert newly (strLower sid) { speciesId := sid }
    dictMapAt n (strLower sid) (fun r => { r with fastMove := some fm })

/-- The charged-move recording block (source lines 247-249): create the
newly-chosen record on first touch and set its `chargedMoves` field. -/
def recordChargedChoice (newly : List (String × OverrideRecord))
    (sid : String) (cms : List String) : List (String × OverrideRecord) :=
  let n := if dictHasKey newly (strLower sid) then newly
           else dictInsert newly (strLower sid) { speciesId := sid }
  dictMapAt n (strLower sid) (fun r => { r with chargedMoves := some cms })

/-! ### Fast move resolution -/

/-- `valid_alternatives` for a fast move (source lines 107-108): the
upper-cased fast-move pool with the banned moves filtered out. -/
def validAlternativesFast (pokemon : PokemonEntry) (banned : Finset String) :
    List String :=
  (pokemon.fastMoves.map strUpper).filter (fun m => decide (m ∉ banned))

/-- The predefined fast-move lookup (source lines 123-138): the upper-cased
predefined move when the record exists, has a `fastMove` key and that move is
a valid alternative; the empty string stands for Python's falsy
`chosen_move` (`None`, or an empty predefined move string) that sends the
code to the interactive prompt. -/
def fastPreChoice (pre : List (String × OverrideRecord)) (sid : String)
    (valid : List String) : String :=
  match dictGet pre (strLower sid) with
  | some od =>
    match od.fastMove with
    | some pm0 =>
      let pm := strUpper pm0
      if pm ∈ valid then pm else ""
    | none => ""
  | none => ""

/-- The fast-move handling block (source lines 98-168). Returns `none` for
the `continue` cases (species missing from the pokemon dict, or no valid
alternative), otherwise the final fast move, together with the updated
session state. -/
def resolveFast (banned : Finset String)
    (pdata : List (String × PokemonEntry)) (sid : String) (fm0 : String)
    (st : SessState) : Except GenErr (Option String × SessState) :=
  if fm0 ∈ banned then
    match dictGet pdata sid with
    | none => Except.ok (none, st)
    | some pokemon =>
      let valid := validAlternativesFast pokemon banned
      if valid.length = 1 then
        let c := valid.headD ""
        Except.ok (some c,
          { st with newly := recordFastChoice st.predefined st.newly sid c })
      else if 1 < valid.length then
        let c0 := fastPreChoice st.predefined sid valid
        if c0 = "" then
          match promptLoop valid.length st.stream with
          | none => Except.error GenErr.promptEOFLoop
          | some (n, s2) =>
            let c := valid.getD (n - 1).toNat ""
            Except.ok (some c,
              { predefined := st.predefined,
                newly := recordFastChoice st.predefined st.newly sid c,
                stream := s2 })
        else
          Except.ok (some c0,
            { st with
                newly := recordFastChoice st.predefined st.newly sid c0 })
      else Except.ok (none, st)
  else Except.ok (some fm0, st)

/-! ### Charged move resolution -/

/-- `valid_alternatives` for a charged move (source lines 198-201): the
upper-cased charged-move pool minus banned moves and minus the moves already
accepted into `final_charged_moves`. -/
def validAlternativesCharged (pokemon : PokemonEntry) (banned : Finset String)
    (final : List String) : List String :=
  (pokemon.chargedMoves.map strUpper).filter
    (fun m => decide (m ∉ banned ∧ m ∉ final))

/-- The predefined full charged-move override check (source lines 174-187):
the upper-cased override list when the record exists, has a `chargedMoves`
key and none of its moves is banned; the empty list stands for Python's
falsy `final_charged_moves` that sends the code into the slot-by-slot loop
(covering the no-record, no-key, banned-override and empty-override cases
alike). -/
def predefChargedOverride (pre : List (String × OverrideRecord))
    (sid : String) (banned : Finset String) : List String :=
  match dictGet pre (strLower sid) with
  | some od =>
    match od.chargedMoves with
    | some cms0 =>
      let pcms := cms0.map strUpper
      if ∀ cm ∈ pcms, cm ∉ banned then pcms else []
    | none => []
  | none => []

/-- The slot-by-slot charged-move loop (source lines 191-239): a non-banned
preferred move is appended as is; a banned one is replaced from the valid
alternatives (auto-select on exactly one, interactive prompt on more than
one) or dropped with a warning when no alternative, when the species is
missing from the pokemon dict, or when the chosen move is falsy. -/
def resolveChargedSlots (banned : Finset String)
    (pdata : List (String × PokemonEntry)) (sid : String) :
    List String → List String → SessState →
    Except GenErr (List String × SessState)
  | [], final, st => Except.ok (final, st)
  | cm :: rest, final, st =>
    if cm ∈ banned then
      match dictGet pdata sid with
      | none => resolveChargedSlots banned pdata sid rest final st
      | some pokemon =>
        let valid := validAlternativesCharged pokemon banned final
        if valid.length = 1 then
          let c := valid.headD ""
          if c = "" then resolveChargedSlots banned pdata sid rest final st
          else resolveChargedSlots banned pdata sid rest (final ++ [c]) st
        else if 1 < valid.length then
          match promptLoop valid.length st.stream with
          | none => Except.error GenErr.promptEOFLoop
          | some (n, s2) =>
            let c := valid.getD (n - 1).toNat ""
            if c = "" then
              resolveChargedSlots banned pdata sid rest final
                { st with stream := s2 }
            else
              resolveChargedSlots banned pdata sid rest (final ++ [c])
                { st with stream := s2 }
        else resolveChargedSlots banned pdata sid rest final st
    else resolveChargedSlots banned pdata sid rest (final ++ [cm]) st

/-- The whole charged-move handling block (source lines 171-239): use the
predefined full override when it is non-empty after validation, otherwise
run the slot-by-slot loop on the preferred charged moves. -/
def resolveCharged (banned : Finset String)
    (pdata : List (String × PokemonEntry)) (sid : String)
    (current : List String) (st : SessState) :
    Except GenErr (List String × SessState) :=
  let pre := predefChargedOverride st.predefined sid banned
  if pre = [] then resolveChargedSlots banned pdata sid current [] st
  else Except.ok (pre, st)

/-- The newly-chosen charged-move tracking block (source lines 241-249):
record the final charged moves when their set differs from the preferred set
and the identifier has no predefined record with a `chargedMoves` key. -/
def trackNewlyCharged (st : SessState) (sid : String) (final : List String)
    (orig : Finset String) : SessState :=
  if final.toFinset ≠ orig then
    match dictGet st.predefined (strLower sid) with
    | some od =>
        if od.chargedMoves.isSome then st
        else { st with newly := recordChargedChoice st.newly sid final }
    | none => { st with newly := recordChargedChoice st.newly sid final }
  else st

/-- The weight lookup (source lines 251-254): a predefined record's `weight`
when present, `1` otherwise. -/
def weightOf (pre : List (String × OverrideRecord)) (sid : String) : Int :=
  match dictGet pre (strLower sid) with
  | some od => match od.weight with | some w => w | none => 1
  | none => 1

/-! ### Per-entry processing and the session loop -/

/-- Processing of one eligible ranking entry (source lines 94-262): fast-move
resolution, charged-move resolution, newly-chosen tracking, weight lookup and
assembly of the output record; `none` means the entry was skipped by a
`continue`. -/
def processRank (banned : Finset String)
    (pdata : List (String × PokemonEntry)) (rank : RankingEntry)
    (st : SessState) : Except GenErr (Option Moveset × SessState) :=
  match rank.moveset.head? with
  | none => Except.error GenErr.indexError
  | some m0 =>
    match resolveFast banned pdata rank.speciesId (strUpper m0) st with
    | Except.error e => Except.error e
    | Except.ok (none, st1) => Except.ok (none, st1)
    | Except.ok (some fast_move, st1) =>
      let current := (rank.moveset.drop 1).map strUpper
      match resolveCharged banned pdata rank.speciesId current st1 with
      | Except.error e => Except.error e
      | Except.ok (final, st2) =>
        let st3 := trackNewlyCharged st2 rank.speciesId final
          current.toFinset
        Except.ok (some
          { speciesId := rank.speciesId,
            fastMove := fast_move,
            chargedMoves := final,
            weight := weightOf st3.predefined rank.speciesId }, st3)

/-- The ranking loop (source lines 92-262): eligible entries are processed in
order and the produced movesets accumulate into the output list. -/
def processRankings (banned : Finset String) (elig : Finset String)
    (pdata : List (String × PokemonEntry)) :
    List RankingEntry → List Moveset → SessState →
    Except GenErr (List Moveset × SessState)
  | [], acc, st => Except.ok (acc, st)
  | rank :: rest, acc, st =>
    if rank.speciesId ∈ elig then
      match processRank banned pdata rank st with
      | Except.error e => Except.error e
      | Except.ok (some m, st1) =>
          processRankings banned elig pdata rest (acc ++ [m]) st1
      | Except.ok (none, st1) =>
          processRankings banned elig pdata rest acc st1
    else processRankings banned elig pdata rest acc st

/-- Lexicographic code-point comparison of character lists: `true` when the
first is at most the second. This is the order Python's `sort` applies to the
string keys `x["speciesId"]`. -/
def strLeb : List Char → List Char → Bool
  | [], _ => true
  | _ :: _, [] => false
  | a :: as, b :: bs =>
    if a.toNat < b.toNat then true
    else if b.toNat < a.toNat then false
    else strLeb as bs

theorem strLeb_total : ∀ as bs, strLeb as bs = true ∨ strLeb bs as = true
  | [], _ => Or.inl rfl
  | _ :: _, [] => Or.inr rfl
  | a :: as, b :: bs => by
    simp only [strLeb]
    rcases Nat.lt_trichotomy a.toNat b.toNat with h | h | h
    · left; simp [h]
    · have h1 : ¬ a.toNat < b.toNat := by omega
      have h2 : ¬ b.toNat < a.toNat := by omega
      rcases strLeb_total as bs with ih | ih <;> simp [h1, h2, ih]
    · right; simp [h, Nat.lt_asymm h]

theorem strLeb_trans : ∀ as bs cs, strLeb as bs = true → strLeb bs cs = true →
    strLeb as cs = true
  | [], _, _, _, _ => rfl
  | _ :: _, [], _, h, _ => by simp [strLeb] at h
  | _ :: _, _ :: _, [], _, h2 => by simp [strLeb] at h2
  | a :: as, b :: bs, c :: cs, h1, h2 => by
    simp only [strLeb] at h1 h2 ⊢
    by_cases hab : a.toNat < b.toNat
    · by_cases hbc : b.toNat < c.toNat
      · have hac : a.toNat < c.toNat := Nat.lt_trans hab hbc
        simp [hac]
      · by_cases hcb : c.toNat < b.toNat
        · simp [hbc, hcb] at h2
        · have hac : a.toNat < c.toNat := by omega
          simp [hac]
    · by_cases hba : b.toNat < a.toNat
      · simp [hab, hba] at h1
      · by_cases hbc : b.toNat < c.toNat
        · have hac : a.toNat < c.toNat := by omega
          simp [hac]
        · by_cases hcb : c.toNat < b.toNat
          · simp [hbc, hcb] at h2
          · have h1a : strLeb as bs = true := by simpa [hab, hba] using h1
            have h2a : strLeb bs cs = true := by simpa [hbc, hcb] using h2
            have hac : ¬ a.toNat < c.toNat := by omega
            have hca : ¬ c.toNat < a.toNat := by omega
            simp [hac, hca, strLeb_trans as bs cs h1a h2a]

/-- The ordering used by the final sort (source line 265): ascending
code-point order of `speciesId`. -/
def movesetLE (a b : Moveset) : Prop :=
  strLeb a.speciesId.data b.speciesId.data = true

instance : DecidableRel movesetLE := fun a b =>
  inferInstanceAs (Decidable (strLeb a.speciesId.data b.speciesId.data = true))

instance : IsTotal Moveset movesetLE :=
  ⟨fun a b => strLeb_total a.speciesId.data b.speciesId.data⟩

instance : IsTrans Moveset movesetLE :=
  ⟨fun a b c h1 h2 => strLeb_trans a.speciesId.data b.speciesId.data
    c.speciesId.data h1 h2⟩

/-- `overrides.sort(key=lambda x: x["speciesId"])`: a stable ascending sort
of the output list by identifier. -/
def sortOutput (l : List Moveset) : List Moveset := l.insertionSort movesetLE

/-- The embedding of `generate_moveset_overrides` from the point where the
data files are in memory: derive the banned moves and the eligible set from
the cup definition, build the pokemon dict, stream the ranking entries
through resolution, and sort the output by identifier. -/
def generate_moveset_overrides (cup : CupDef)
    (pokemonList : List PokemonEntry) (rankings : List RankingEntry)
    (pre newly : List (String × OverrideRecord))
    (stream : List (Option Int)) : Except GenErr (List Moveset × SessState) :=
  match bannedMovesOf cup with
  | Except.error e => Except.error e
  | Except.ok banned =>
    match eligibleOf cup with
    | Except.error e => Except.error e
    | Except.ok elig =>
      match processRankings banned elig (buildPokemonDict pokemonList)
          rankings [] ⟨pre, newly, stream⟩ with
      | Except.error e => Except.error e
      | Except.ok (out, st) => Except.ok (sortOutput out, st)

/-! ### Dictionary lemmas -/

theorem dictGet_of_hasKey_false {α : Type} {d : List (String × α)}
    {k : String} (h : ¬ dictHasKey d k = true) : dictGet d k = none := by
  simpa [dictHasKey, Option.not_isSome_iff_eq_none] using h

theorem dictGet_isSome_of_hasKey {α : Type} {d : List (String × α)}
    {k : String} (h : dictHasKey d k = true) : (dictGet d k).isSome = true := h

theorem dictGet_append {α : Type} (d1 d2 : List (String × α)) (k : String) :
    dictGet (d1 ++ d2) k =
      match dictGet d1 k with
      | some v => some v
      | none => dictGet d2 k := by
  induction d1 with
  | nil => rfl
  | cons kv d ih =>
    by_cases h : kv.1 = k
    · simp [dictGet, h]
    · simp [dictGet, h, ih]

theorem dictGet_mapAt_self {α : Type} (d : List (String × α)) (k : String)
    (f : α → α) : dictGet (dictMapAt d k f) k = (dictGet d k).map f := by
  induction d with
  | nil => rfl
  | cons kv d ih =>
    simp only [dictMapAt, List.map_cons] at ih ⊢
    by_cases h : kv.1 = k
    · simp [dictGet, h]
    · simp [dictGet, h, ih]

theorem dictGet_insertMap {α : Type} (d : List (String × α)) (k q : String)
    (v : α) :
    dictGet (d.map (fun kv => if kv.1 = k then (k, v) else kv)) q =
      if q = k then (if dictHasKey d k then some v else none)
      else dictGet d q := by
  induction d with
  | nil => by_cases h : q = k <;> simp [dictGet, dictHasKey, h]
  | cons kv d ih =>
    simp only [List.map_cons]
    by_cases h1 : kv.1 = k
    · by_cases h2 : q = k
      · subst h2; simp [dictGet, dictHasKey, h1]
      · have hkq : ¬ k = q := fun e => h2 e.symm
        have hkvq : ¬ kv.1 = q := fun e => h2 (h1.symm.trans e).symm
        rw [if_pos h1]
        simp [dictGet, h2, hkq, hkvq, ih]
    · by_cases h3 : kv.1 = q
      · have hqk : ¬ q = k := fun e => h1 (h3.trans e)
        simp [dictGet, h1, h3, hqk]
      · simp [dictGet, dictHasKey, h1, h3, ih]

theorem dictGet_dictInsert {α : Type} (d : List (String × α)) (k q : String)
    (v : α) :
    dictGet (dictInsert d k v) q = if q = k then some v else dictGet d q := by
  unfold dictInsert
  by_cases hk : dictHasKey d k
  · rw [if_pos hk, dictGet_insertMap]
    simp [hk]
  · rw [if_neg hk, dictGet_append]
    have hnone : dictGet d k = none := dictGet_of_hasKey_false hk
    by_cases hq : q = k
    · subst hq
      simp [hnone, dictGet]
    · have hkq : ¬ k = q := fun e => hq e.symm
      cases hd : dictGet d q <;> simp [dictGet, hkq, hq]

/-- The value of the last binding of a key in a list of bindings; `dict.update`
leaves exactly this value at the key. -/
def lastVal {α : Type} : List (String × α) → String → Option α
  | [], _ => none
  | kv :: d, k =>
    match lastVal d k with
    | some v => some v
    | none => if kv.1 = k then some kv.2 else none

theorem dictGet_dictUpdate {α : Type} (n : List (String × α)) :
    ∀ (p : List (String × α)) (k : String),
    dictGet (dictUpdate p n) k =
      match lastVal n k with
      | some v => some v
      | none => dictGet p k := by
  induction n with
  | nil => intro p k; rfl
  | cons kv t ih =>
    intro p k
    have step : dictUpdate p (kv :: t) = dictUpdate (dictInsert p kv.1 kv.2) t := rfl
    rw [step, ih]
    cases hl : lastVal t k with
    | some v => simp [lastVal, hl]
    | none =>
      simp only [lastVal, hl]
      rw [dictGet_dictInsert]
      by_cases h : k = kv.1
      · simp [h]
      · have h2 : ¬ kv.1 = k := fun e => h e.symm
        simp [h, h2]

/-- C8. The persistence merge block (`final_overrides_dict =
predefined_overrides.copy(); final_overrides_dict.update(newly_chosen_overrides)`)
satisfies the two merge laws: merging an empty newly-chosen dict returns the
predefined store exactly, and merging the same newly-chosen dict a second
time leaves the value stored at every key unchanged (per-key full-record
overwrite, newly chosen winning). -/
theorem c8_merge_laws :
    (∀ p : List (String × OverrideRecord), mergeOverrides p [] = p) ∧
    (∀ (p n : List (String × OverrideRecord)) (k : String),
      dictGet (mergeOverrides (mergeOverrides p n) n) k =
        dictGet (mergeOverrides p n) k) := by
  constructor
  · intro p; rfl
  · intro p n k
    simp only [mergeOverrides]
    rw [dictGet_dictUpdate, dictGet_dictUpdate]
    cases hl : lastVal n k <;> simp [hl]

/-! ### Prompt and valid-alternative lemmas -/

theorem promptLoop_range {len : Nat} {s : List (Option Int)} {n : Int}
    {s2 : List (Option Int)} (h : promptLoop len s = some (n, s2)) :
    1 ≤ n ∧ n ≤ (len : Int) := by
  induction s with
  | nil => simp [promptLoop] at h
  | cons a rest ih =>
    cases a with
    | none => exact ih h
    | some m =>
      simp only [promptLoop] at h
      split at h
      · exact ih h
      · rename_i hc
        push_neg at hc
        simp only [Option.some.injEq, Prod.mk.injEq] at h
        obtain ⟨h1, -⟩ := h
        subst h1
        exact ⟨hc.1, hc.2⟩

theorem prompt_index_lt {len : Nat} {s : List (Option Int)} {n : Int}
    {s2 : List (Option Int)} (h : promptLoop len s = some (n, s2))
    (_hlen : 0 < len) : (n - 1).toNat < len := by
  obtain ⟨h1, h2⟩ := promptLoop_range h
  omega

theorem getD_mem_of_lt {l : List String} {i : Nat} (h : i < l.length) :
    l.getD i "" ∈ l := by
  rw [List.getD_eq_getElem l "" h]
  exact List.getElem_mem h

theorem headD_mem_of_length_eq_one {l : List String} (h : l.length = 1) :
    l.headD "" ∈ l := by
  obtain ⟨a, rfl⟩ := List.length_eq_one.mp h
  simp

theorem mem_validFast_not_banned {pokemon : PokemonEntry}
    {banned : Finset String} {m : String}
    (h : m ∈ validAlternativesFast pokemon banned) : m ∉ banned := by
  simp only [validAlternativesFast, List.mem_filter, decide_eq_true_eq] at h
  exact h.2

theorem mem_validCharged {pokemon : PokemonEntry} {banned : Finset String}
    {final : List String} {m : String}
    (h : m ∈ validAlternativesCharged pokemon banned final) :
    m ∉ banned ∧ m ∉ final := by
  simp only [validAlternativesCharged, List.mem_filter, decide_eq_true_eq] at h
  exact h.2

theorem fastPreChoice_mem {pre : List (String × OverrideRecord)} {sid : String}
    {valid : List String} (h : fastPreChoice pre sid valid ≠ "") :
    fastPreChoice pre sid valid ∈ valid := by
  simp only [fastPreChoice] at h ⊢
  cases hod : dictGet pre (strLower sid) with
  | none => simp [hod] at h
  | some od =>
    cases hfm : od.fastMove with
    | none => simp [hod, hfm] at h
    | some pm0 =>
      simp only [hod, hfm] at h ⊢
      by_cases hv : strUpper pm0 ∈ valid
      · rw [if_pos hv]; exact hv
      · rw [if_neg hv] at h; exact absurd rfl h

/-! ### Fast-move resolver lemmas -/

theorem resolveFast_ok_mem {banned : Finset String}
    {pdata : List (String × PokemonEntry)} {sid fm0 : String} {st : SessState}
    {fm : String} {st1 : SessState}
    (h : resolveFast banned pdata sid fm0 st = Except.ok (some fm, st1)) :
    (fm0 ∉ banned ∧ fm = fm0) ∨
    ∃ pokemon, dictGet pdata sid = some pokemon ∧
      fm ∈ validAlternativesFast pokemon banned := by
  simp only [resolveFast] at h
  split at h
  · rename_i hb
    split at h
    · simp at h
    · rename_i pokemon hp
      split at h
      · rename_i hlen1
        simp only [Except.ok.injEq, Prod.mk.injEq, Option.some.injEq] at h
        exact Or.inr ⟨pokemon, hp, h.1 ▸ headD_mem_of_length_eq_one hlen1⟩
      · split at h
        · rename_i hlen1 hlen
          split at h
          · split at h
            · simp at h
            · rename_i hc0 n s2 hpl
              simp only [Except.ok.injEq, Prod.mk.injEq, Option.some.injEq] at h
              refine Or.inr ⟨pokemon, hp, h.1 ▸ getD_mem_of_lt ?_⟩
              exact prompt_index_lt hpl (Nat.lt_of_lt_of_le Nat.zero_lt_one hlen.le)
          · rename_i hc0
            simp only [Except.ok.injEq, Prod.mk.injEq, Option.some.injEq] at h
            exact Or.inr ⟨pokemon, hp, h.1 ▸ fastPreChoice_mem hc0⟩
        · simp at h
  · rename_i hb
    simp only [Except.ok.injEq, Prod.mk.injEq, Option.some.injEq] at h
    exact Or.inl ⟨hb, h.1.symm⟩

theorem resolveFast_not_banned {banned : Finset String}
    {pdata : List (String × PokemonEntry)} {sid fm0 : String} {st : SessState}
    {fm : String} {st1 : SessState}
    (h : resolveFast banned pdata sid fm0 st = Except.ok (some fm, st1)) :
    fm ∉ banned := by
  rcases resolveFast_ok_mem h with ⟨hb, rfl⟩ | ⟨pokemon, -, hmem⟩
  · exact hb
  · exact mem_validFast_not_banned hmem

theorem resolveFast_pre {banned : Finset String}
    {pdata : List (String × PokemonEntry)} {sid fm0 : String} {st : SessState}
    {r : Option String} {st1 : SessState}
    (h : resolveFast banned pdata sid fm0 st = Except.ok (r, st1)) :
    st1.predefined = st.predefined := by
  simp only [resolveFast] at h
  split at h
  · split at h
    · simp only [Except.ok.injEq, Prod.mk.injEq] at h; rw [← h.2]
    · split at h
      · simp only [Except.ok.injEq, Prod.mk.injEq] at h; rw [← h.2]
      · split at h
        · split at h
          · split at h
            · simp at h
            · simp only [Except.ok.injEq, Prod.mk.injEq] at h; rw [← h.2]
          · simp only [Except.ok.injEq, Prod.mk.injEq] at h; rw [← h.2]
        · simp only [Except.ok.injEq, Prod.mk.injEq] at h; rw [← h.2]
  · simp only [Except.ok.injEq, Prod.mk.injEq] at h; rw [← h.2]

/-! ### Charged-move resolver lemmas -/

theorem resolveChargedSlots_not_banned {banned : Finset String}
    {pdata : List (String × PokemonEntry)} {sid : String} :
    ∀ {current final : List String} {st : SessState} {res : List String}
      {st1 : SessState},
    resolveChargedSlots banned pdata sid current final st =
      Except.ok (res, st1) →
    (∀ c ∈ final, c ∉ banned) → ∀ c ∈ res, c ∉ banned := by
  intro current
  induction current with
  | nil =>
    intro final st res st1 h hf
    simp only [resolveChargedSlots, Except.ok.injEq, Prod.mk.injEq] at h
    exact h.1 ▸ hf
  | cons cm rest ih =>
    intro final st res st1 h hf
    simp only [resolveChargedSlots] at h
    split at h
    · split at h
      · exact ih h hf
      · rename_i pokemon hp
        split at h
        · rename_i hlen1
          split at h
          · exact ih h hf
          · refine ih h ?_
            intro c hcmem
            rcases List.mem_append.mp hcmem with h1 | h1
            · exact hf c h1
            · have hc : c = (validAlternativesCharged pokemon banned
                  final).headD "" := by simpa using h1
              exact hc ▸
                (mem_validCharged (headD_mem_of_length_eq_one hlen1)).1
        · split at h
          · rename_i hlen1 hlen
            split at h
            · simp at h
            · rename_i n s2 hpl
              split at h
              · exact ih h hf
              · refine ih h ?_
                intro c hcmem
                rcases List.mem_append.mp hcmem with h1 | h1
                · exact hf c h1
                · have hc : c = (validAlternativesCharged pokemon banned
                      final).getD (n - 1).toNat "" := by simpa using h1
                  have hb : (n - 1).toNat <
                      (validAlternativesCharged pokemon banned
                        final).length :=
                    prompt_index_lt hpl
                      (Nat.lt_of_lt_of_le Nat.zero_lt_one hlen.le)
                  exact hc ▸ (mem_validCharged (getD_mem_of_lt hb)).1
          · exact ih h hf
    · rename_i hcm
      refine ih h ?_
      intro c hcmem
      rcases List.mem_append.mp hcmem with h1 | h1
      · exact hf c h1
      · have hc : c = cm := by simpa using h1
        exact hc ▸ hcm

theorem resolveChargedSlots_pre {banned : Finset String}
    {pdata : List (String × PokemonEntry)} {sid : String} :
    ∀ {current final : List String} {st : SessState} {res : List String}
      {st1 : SessState},
    resolveChargedSlots banned pdata sid current final st =
      Except.ok (res, st1) →
    st1.predefined = st.predefined := by
  intro current
  induction current with
  | nil =>
    intro final st res st1 h
    simp only [resolveChargedSlots, Except.ok.injEq, Prod.mk.injEq] at h
    rw [← h.2]
  | cons cm rest ih =>
    intro final st res st1 h
    simp only [resolveChargedSlots] at h
    split at h
    · split at h
      · exact ih h
      · split at h
        · split at h
          · exact ih h
          · exact ih h
        · split at h
          · split at h
            · simp at h
            · split at h
              · exact (ih h).trans rfl
              · exact (ih h).trans rfl
          · exact ih h
    · exact ih h

theorem predefChargedOverride_not_banned {pre : List (String × OverrideRecord)}
    {sid : String} {banned : Finset String} :
    ∀ c ∈ predefChargedOverride pre sid banned, c ∉ banned := by
  simp only [predefChargedOverride]
  split
  · split
    · split
      · rename_i hall
        exact hall
      · simp
    · simp
  · simp

theorem resolveCharged_not_banned {banned : Finset String}
    {pdata : List (String × PokemonEntry)} {sid : String}
    {current : List String} {st : SessState} {res : List String}
    {st1 : SessState}
    (h : resolveCharged banned pdata sid current st = Except.ok (res, st1)) :
    ∀ c ∈ res, c ∉ banned := by
  simp only [resolveCharged] at h
  split at h
  · exact resolveChargedSlots_not_banned h (by simp)
  · simp only [Except.ok.injEq, Prod.mk.injEq] at h
    exact h.1 ▸ predefChargedOverride_not_banned

theorem resolveCharged_pre {banned : Finset String}
    {pdata : List (String × PokemonEntry)} {sid : String}
    {current : List String} {st : SessState} {res : List String}
    {st1 : SessState}
    (h : resolveCharged banned pdata sid current st = Except.ok (res, st1)) :
    st1.predefined = st.predefined := by
  simp only [resolveCharged] at h
  split at h
  · exact resolveChargedSlots_pre h
  · simp only [Except.ok.injEq, Prod.mk.injEq] at h
    rw [← h.2]

theorem trackNewlyCharged_pre (st : SessState) (sid : String)
    (final : List String) (orig : Finset String) :
    (trackNewlyCharged st sid final orig).predefined = st.predefined := by
  simp only [trackNewlyCharged]
  split
  · split
    · split
      · rfl
      · rfl
    · rfl
  · rfl

/-! ### Per-entry and loop lemmas -/

theorem processRank_pre {banned : Finset String}
    {pdata : List (String × PokemonEntry)} {rank : RankingEntry}
    {st : SessState} {m : Option Moveset} {st1 : SessState}
    (h : processRank banned pdata rank st = Except.ok (m, st1)) :
    st1.predefined = st.predefined := by
  simp only [processRank] at h
  split at h
  · simp at h
  · split at h
    · simp at h
    · rename_i st1a heqF
      simp only [Except.ok.injEq, Prod.mk.injEq] at h
      rw [← h.2]
      exact resolveFast_pre heqF
    · rename_i fm st1a heqF
      split at h
      · simp at h
      · rename_i final st2 heqC
        simp only [Except.ok.injEq, Prod.mk.injEq] at h
        rw [← h.2, trackNewlyCharged_pre, resolveCharged_pre heqC,
          resolveFast_pre heqF]

theorem processRank_not_banned {banned : Finset String}
    {pdata : List (String × PokemonEntry)} {rank : RankingEntry}
    {st : SessState} {m : Moveset} {st1 : SessState}
    (h : processRank banned pdata rank st = Except.ok (some m, st1)) :
    m.fastMove ∉ banned ∧ ∀ cm ∈ m.chargedMoves, cm ∉ banned := by
  simp only [processRank] at h
  split at h
  · simp at h
  · split at h
    · simp at h
    · simp at h
    · rename_i fm st1a heqF
      split at h
      · simp at h
      · rename_i final st2 heqC
        simp only [Except.ok.injEq, Prod.mk.injEq, Option.some.injEq] at h
        rw [← h.1]
        exact ⟨resolveFast_not_banned heqF, resolveCharged_not_banned heqC⟩

theorem processRankings_pre {banned elig : Finset String}
    {pdata : List (String × PokemonEntry)} :
    ∀ {ranks : List RankingEntry} {acc : List Moveset} {st : SessState}
      {out : List Moveset} {st1 : SessState},
    processRankings banned elig pdata ranks acc st = Except.ok (out, st1) →
    st1.predefined = st.predefined := by
  intro ranks
  induction ranks with
  | nil =>
    intro acc st out st1 h
    simp only [processRankings, Except.ok.injEq, Prod.mk.injEq] at h
    rw [← h.2]
  | cons rank rest ih =>
    intro acc st out st1 h
    simp only [processRankings] at h
    split at h
    · split at h
      · simp at h
      · rename_i m st2 heq
        exact (ih h).trans (processRank_pre heq)
      · rename_i st2 heq
        exact (ih h).trans (processRank_pre heq)
    · exact ih h

theorem processRankings_not_banned {banned elig : Finset String}
    {pdata : List (String × PokemonEntry)} :
    ∀ {ranks : List RankingEntry} {acc : List Moveset} {st : SessState}
      {out : List Moveset} {st1 : SessState},
    processRankings banned elig pdata ranks acc st = Except.ok (out, st1) →
    (∀ m ∈ acc, m.fastMove ∉ banned ∧ ∀ cm ∈ m.chargedMoves, cm ∉ banned) →
    ∀ m ∈ out, m.fastMove ∉ banned ∧ ∀ cm ∈ m.chargedMoves, cm ∉ banned := by
  intro ranks
  induction ranks with
  | nil =>
    intro acc st out st1 h hacc
    simp only [processRankings, Except.ok.injEq, Prod.mk.injEq] at h
    exact h.1 ▸ hacc
  | cons rank rest ih =>
    intro acc st out st1 h hacc
    simp only [processRankings] at h
    split at h
    · split at h
      · simp at h
      · rename_i m st2 heq
        refine ih h ?_
        intro m2 hm2
        rcases List.mem_append.mp hm2 with h1 | h1
        · exact hacc m2 h1
        · have : m2 = m := by simpa using h1
          exact this ▸ processRank_not_banned heq
      · rename_i st2 heq
        exact ih h hacc
    · exact ih h hacc

instance {ε α : Type} [DecidableEq ε] [DecidableEq α] :
    DecidableEq (Except ε α) := fun x y =>
  match x, y with
  | Except.ok a, Except.ok b =>
      if h : a = b then isTrue (by rw [h])
      else isFalse (fun e => by cases e; exact h rfl)
  | Except.error a, Except.error b =>
      if h : a = b then isTrue (by rw [h])
      else isFalse (fun e => by cases e; exact h rfl)
  | Except.ok _, Except.error _ => isFalse (fun e => by cases e)
  | Except.error _, Except.ok _ => isFalse (fun e => by cases e)

/-! ### Claim theorems: output invariants -/

/-- C1: for every ranking entry that produces an entry in the final output
list, neither its final fast move nor any of its final charged moves is a
member of the banned-move set derived from the event rules. -/
theorem c1_output_never_banned (cup : CupDef) (pokemonList : List PokemonEntry)
    (rankings : List RankingEntry) (pre newly : List (String × OverrideRecord))
    (stream : List (Option Int)) (banned : Finset String) (out : List Moveset)
    (st : SessState)
    (hb : bannedMovesOf cup = Except.ok banned)
    (h : generate_moveset_overrides cup pokemonList rankings pre newly stream =
      Except.ok (out, st)) :
    ∀ m ∈ out, m.fastMove ∉ banned ∧ ∀ cm ∈ m.chargedMoves, cm ∉ banned := by
  simp only [generate_moveset_overrides, hb] at h
  split at h
  · simp at h
  · split at h
    · simp at h
    · rename_i out0 st0 heq
      simp only [Except.ok.injEq, Prod.mk.injEq] at h
      intro m hm
      have hm0 : m ∈ out0 := by
        rw [← h.1] at hm
        simp only [sortOutput] at hm
        exact (List.perm_insertionSort movesetLE out0).mem_iff.mp hm
      exact processRankings_not_banned heq (by simp) m hm0

/-- Witness for C1 at a concrete session: one eligible entry whose emitted
fast move and first charged move are not banned. -/
theorem c1_output_never_banned_witness :
    "TACKLE" ∉ ({"BAD"} : Finset String) ∧
    "SLAM" ∉ ({"BAD"} : Finset String) := by
  have H := c1_output_never_banned
    ⟨some [⟨some "id", some ["mon"]⟩],
     some [ExcludeEntry.objE (some "move") (some ["BAD"]) none]⟩
    [⟨"mon", ["TACKLE"], ["SLAM", "BITE"]⟩]
    [⟨"mon", ["TACKLE", "SLAM", "BITE"]⟩]
    [] [] [] {"BAD"} [Moveset.mk "mon" "TACKLE" ["SLAM", "BITE"] 1]
    ⟨[], [], []⟩ (by decide) (by decide)
    (Moveset.mk "mon" "TACKLE" ["SLAM", "BITE"] 1) (by decide)
  exact ⟨H.1, H.2 "SLAM" (by decide)⟩

/-- C9: for every input ranking order, the emitted output list of resolved
movesets is sorted ascending by identifier. -/
theorem c9_output_sorted (cup : CupDef) (pokemonList : List PokemonEntry)
    (rankings : List RankingEntry) (pre newly : List (String × OverrideRecord))
    (stream : List (Option Int)) (out : List Moveset) (st : SessState)
    (h : generate_moveset_overrides cup pokemonList rankings pre newly stream =
      Except.ok (out, st)) :
    List.Sorted movesetLE out := by
  simp only [generate_moveset_overrides] at h
  split at h
  · simp at h
  · split at h
    · simp at h
    · split at h
      · simp at h
      · rename_i out0 st0 heq
        simp only [Except.ok.injEq, Prod.mk.injEq] at h
        rw [← h.1]
        simp only [sortOutput]
        exact List.sorted_insertionSort movesetLE out0

/-- Witness for C9 at a concrete session whose ranking order is reversed
relative to the identifiers. -/
theorem c9_output_sorted_witness :
    List.Sorted movesetLE
      [Moveset.mk "amon" "F2" ["C3", "C4"] 1,
       Moveset.mk "bmon" "F1" ["C1", "C2"] 1] :=
  c9_output_sorted ⟨some [⟨some "id", some ["bmon", "amon"]⟩], none⟩ []
    [⟨"bmon", ["F1", "C1", "C2"]⟩, ⟨"amon", ["F2", "C3", "C4"]⟩] [] [] []
    [Moveset.mk "amon" "F2" ["C3", "C4"] 1,
     Moveset.mk "bmon" "F1" ["C1", "C2"] 1]
    ⟨[], [], []⟩ (by decide)

/-- C10: `generate_moveset_overrides` never mutates the predefined overrides
dict: whenever the session returns, the predefined layer of the final state
is exactly the dict passed in; resolution writes only to the newly-chosen
dict and the output list. -/
theorem c10_predefined_unchanged (cup : CupDef)
    (pokemonList : List PokemonEntry) (rankings : List RankingEntry)
    (pre newly : List (String × OverrideRecord)) (stream : List (Option Int))
    (out : List Moveset) (st : SessState)
    (h : generate_moveset_overrides cup pokemonList rankings pre newly stream =
      Except.ok (out, st)) :
    st.predefined = pre := by
  simp only [generate_moveset_overrides] at h
  split at h
  · simp at h
  · split at h
    · simp at h
    · split at h
      · simp at h
      · rename_i out0 st0 heq
        simp only [Except.ok.injEq, Prod.mk.injEq] at h
        rw [← h.2]
        exact processRankings_pre heq

/-- Witness for C10 at a concrete session that consults a non-empty
predefined store and records nothing. -/
theorem c10_predefined_unchanged_witness :
    (SessState.mk [("mon", OverrideRecord.mk "mon" none none (some 3))] [] []
      ).predefined = [("mon", OverrideRecord.mk "mon" none none (some 3))] :=
  c10_predefined_unchanged
    ⟨some [⟨some "id", some ["mon"]⟩],
     some [ExcludeEntry.objE (some "move") (some ["BAD"]) none]⟩
    [⟨"mon", ["BAD", "ALT"], []⟩]
    [⟨"mon", ["BAD", "C1", "C2"]⟩]
    [("mon", OverrideRecord.mk "mon" none none (some 3))] [] []
    [Moveset.mk "mon" "ALT" ["C1", "C2"] 3]
    ⟨[("mon", OverrideRecord.mk "mon" none none (some 3))], [], []⟩
    (by decide)

/-! ### Claim C3: exclusion-entry semantics -/

/-- C3 counterexample: a structured exclusion rule with filterType `"id"` and
a values list naming `pikachu` leaves `pikachu` in the eligible set — the
exclude loop removes dict entries only through a `speciesId` key, so the
claimed removal does not happen. -/
theorem c3_counterexample :
    "pikachu" ∈ processExcludes
      [ExcludeEntry.objE (some "id") (some ["pikachu"]) none]
      ({"pikachu"} : Finset String) := by decide

/-- C3 amended: a bare identifier string is removed from the eligible set
when present by the exclude loop — but any bare string first makes the
banned-move extraction raise `AttributeError` (it calls `.get` on the
string), aborting the session before eligibility filtering; a structured
rule is removed exactly when it carries a `speciesId` key; a structured rule
with filterType `"move"` adds its upper-cased values to the banned-move set
and a structured rule without a `speciesId` key — in particular one with
filterType `"id"` and a values list — removes nothing from the eligible
set. -/
theorem c3_amended_exclusion_semantics :
    (∀ (ex1 ex2 : List ExcludeEntry) (s : String) (acc : Finset String),
      extractBannedMoves (ex1 ++ ExcludeEntry.strE s :: ex2) acc =
        Except.error GenErr.attributeError) ∧
    (∀ (ft : Option String) (vs : Option (List String)) (sid : Option String)
      (rest : List ExcludeEntry) (acc : Finset String),
      extractBannedMoves (ExcludeEntry.objE ft vs sid :: rest) acc =
        extractBannedMoves rest
          (if ft = some "move" then
            acc ∪ (((vs.getD []).map strUpper).toFinset)
           else acc)) ∧
    (∀ (s : String) (elig : Finset String),
      processExcludes [ExcludeEntry.strE s] elig =
        if s ∈ elig then elig.erase s else elig) ∧
    (∀ (ft : Option String) (vs : Option (List String)) (sid : String)
      (elig : Finset String),
      processExcludes [ExcludeEntry.objE ft vs (some sid)] elig =
        if sid ∈ elig then elig.erase sid else elig) ∧
    (∀ (ft : Option String) (vs : Option (List String)) (elig : Finset String),
      processExcludes [ExcludeEntry.objE ft vs none] elig = elig) := by
  refine ⟨?_, ?_, ?_, ?_, ?_⟩
  · intro ex1
    induction ex1 with
    | nil => intro ex2 s acc; rfl
    | cons e rest ih =>
      intro ex2 s acc
      cases e with
      | strE t => rfl
      | objE ft vs sid =>
        simp only [List.cons_append, extractBannedMoves]
        exact ih ex2 s _
  · intro ft vs sid rest acc; rfl
  · intro s elig; rfl
  · intro ft vs sid elig; rfl
  · intro ft vs elig; rfl

/-! ### Claim C2: duplicate charged moves -/

/-- C2 counterexample: with `BAD` banned, the preferred charged moves
`[BAD, B]` and the charged pool `[B]`, the banned slot is auto-replaced by
`B` and the non-banned preferred `B` is then appended without any duplicate
check, so the emitted entry carries the duplicated charged list `[B, B]`. -/
theorem c2_counterexample :
    generate_moveset_overrides
      ⟨some [⟨some "id", some ["mon"]⟩],
       some [ExcludeEntry.objE (some "move") (some ["BAD"]) none]⟩
      [⟨"mon", [], ["B"]⟩]
      [⟨"mon", ["F", "BAD", "B"]⟩] [] [] [] =
      Except.ok ([Moveset.mk "mon" "F" ["B", "B"] 1],
        ⟨[], [("mon", OverrideRecord.mk "mon" none (some ["B", "B"]) none)],
         []⟩) ∧
    ¬ (["B", "B"] : List String).Nodup := by
  exact ⟨by decide, by decide⟩

theorem nodup_append_singleton {l : List String} {a : String}
    (h : l.Nodup) (ha : a ∉ l) : (l ++ [a]).Nodup := by
  simp [List.nodup_append, h, ha]

theorem resolveChargedSlots_nodup {banned : Finset String}
    {pdata : List (String × PokemonEntry)} {sid : String} :
    ∀ {current final : List String} {st : SessState} {res : List String}
      {st1 : SessState},
    (∀ c ∈ current, c ∈ banned) → final.Nodup →
    resolveChargedSlots banned pdata sid current final st =
      Except.ok (res, st1) →
    res.Nodup := by
  intro current
  induction current with
  | nil =>
    intro final st res st1 _ hnd h
    simp only [resolveChargedSlots, Except.ok.injEq, Prod.mk.injEq] at h
    exact h.1 ▸ hnd
  | cons cm rest ih =>
    intro final st res st1 hcur hnd h
    have hcur2 : ∀ c ∈ rest, c ∈ banned :=
      fun c hc => hcur c (List.mem_cons_of_mem _ hc)
    simp only [resolveChargedSlots] at h
    split at h
    · split at h
      · exact ih hcur2 hnd h
      · rename_i pokemon hp
        split at h
        · rename_i hlen1
          split at h
          · exact ih hcur2 hnd h
          · refine ih hcur2 ?_ h
            exact nodup_append_singleton hnd
              (mem_validCharged (headD_mem_of_length_eq_one hlen1)).2
        · split at h
          · rename_i hlen1 hlen
            split at h
            · simp at h
            · rename_i n s2 hpl
              split at h
              · exact ih hcur2 hnd h
              · refine ih hcur2 ?_ h
                have hbnd : (n - 1).toNat <
                    (validAlternativesCharged pokemon banned final).length :=
                  prompt_index_lt hpl
                    (Nat.lt_of_lt_of_le Nat.zero_lt_one hlen.le)
                exact nodup_append_singleton hnd
                  (mem_validCharged (getD_mem_of_lt hbnd)).2
          · exact ih hcur2 hnd h
    · rename_i hcm
      exact absurd (hcur cm (List.mem_cons_self _ _)) hcm

/-- C2 amended: the valid-alternative computation for a banned charged slot
excludes the banned moves and the moves already accepted into the final
list, so a replacement chosen for a banned slot never duplicates an earlier
accepted move — in particular, when every preferred charged move is banned
the resolved list has no duplicates. The final charged list may nevertheless
contain duplicates, because a non-banned preferred move is appended without
any duplicate check (see the counterexample). -/
theorem c2_amended_no_dup_replacements :
    (∀ (pokemon : PokemonEntry) (banned : Finset String)
      (final : List String) (m : String),
      m ∈ validAlternativesCharged pokemon banned final →
      m ∉ banned ∧ m ∉ final) ∧
    (∀ (banned : Finset String) (pdata : List (String × PokemonEntry))
      (sid : String) (current final : List String) (st : SessState)
      (res : List String) (st1 : SessState),
      (∀ c ∈ current, c ∈ banned) → final.Nodup →
      resolveChargedSlots banned pdata sid current final st =
        Except.ok (res, st1) →
      res.Nodup) :=
  ⟨fun _ _ _ _ h => mem_validCharged h,
   fun _ _ _ _ _ _ _ _ h1 h2 h3 => resolveChargedSlots_nodup h1 h2 h3⟩

/-- Witness for the amended C2 at concrete inputs: the single valid
alternative `B` is neither banned nor already accepted, and a run in which
the only preferred charged move is banned produces a duplicate-free list. -/
theorem c2_amended_witness :
    ("B" ∉ ({"BAD"} : Finset String) ∧ "B" ∉ ([] : List String)) ∧
    (["B"] : List String).Nodup :=
  ⟨c2_amended_no_dup_replacements.1 ⟨"mon", [], ["B"]⟩ {"BAD"} [] "B"
      (by decide),
   c2_amended_no_dup_replacements.2 {"BAD"}
      [("mon", PokemonEntry.mk "mon" [] ["B"])] "mon" ["BAD"] []
      ⟨[], [], []⟩ ["B"] ⟨[], [], []⟩ (by decide) (by decide) (by decide)⟩

/-! ### Claims C5 and C7: recording of fast-move decisions -/

theorem recordFastChoice_of_hasKey {pre newly : List (String × OverrideRecord)}
    {sid fm : String} (hk : dictHasKey pre (strLower sid) = true) :
    recordFastChoice pre newly sid fm = newly := by
  simp [recordFastChoice, hk]

theorem recordFastChoice_of_not_hasKey
    {pre newly : List (String × OverrideRecord)} {sid fm : String}
    (hk : dictHasKey pre (strLower sid) = false) :
    (dictGet (recordFastChoice pre newly sid fm) (strLower sid)).map
      OverrideRecord.fastMove = some (some fm) := by
  by_cases hn : dictHasKey newly (strLower sid) = true
  · obtain ⟨r, hr⟩ := Option.isSome_iff_exists.mp hn
    simp [recordFastChoice, hk, hn, dictGet_mapAt_self, hr]
  · simp [recordFastChoice, hk, hn, dictGet_mapAt_self, dictGet_dictInsert]

/-- C5 amended: whenever the fast-move resolver has more than one valid
alternative and no usable predefined fast-move choice, the move returned by
the disambiguation prompt becomes the final fast move — but it is recorded
as a newly chosen decision exactly when the lower-cased identifier is not a
key of the predefined override store; any predefined record for the
identifier, even one without a usable fast move, suppresses the recording. -/
theorem c5_amended_prompt_recording (banned : Finset String)
    (pdata : List (String × PokemonEntry)) (sid fm0 : String) (st : SessState)
    (pokemon : PokemonEntry) (n : Int) (s2 : List (Option Int))
    (hb : fm0 ∈ banned)
    (hp : dictGet pdata sid = some pokemon)
    (hlen : 1 < (validAlternativesFast pokemon banned).length)
    (hpre : fastPreChoice st.predefined sid
      (validAlternativesFast pokemon banned) = "")
    (hprompt : promptLoop (validAlternativesFast pokemon banned).length
      st.stream = some (n, s2)) :
    resolveFast banned pdata sid fm0 st =
      Except.ok
        (some ((validAlternativesFast pokemon banned).getD (n - 1).toNat ""),
         ⟨st.predefined,
          recordFastChoice st.predefined st.newly sid
            ((validAlternativesFast pokemon banned).getD (n - 1).toNat ""),
          s2⟩) ∧
    (dictHasKey st.predefined (strLower sid) = true →
      recordFastChoice st.predefined st.newly sid
        ((validAlternativesFast pokemon banned).getD (n - 1).toNat "") =
        st.newly) ∧
    (dictHasKey st.predefined (strLower sid) = false →
      (dictGet (recordFastChoice st.predefined st.newly sid
          ((validAlternativesFast pokemon banned).getD (n - 1).toNat ""))
        (strLower sid)).map OverrideRecord.fastMove =
      some (some ((validAlternativesFast pokemon banned).getD
        (n - 1).toNat ""))) := by
  have hne1 : ¬ (validAlternativesFast pokemon banned).length = 1 := by omega
  refine ⟨?_, fun hk => recordFastChoice_of_hasKey hk,
    fun hk => recordFastChoice_of_not_hasKey hk⟩
  simp [resolveFast, hb, hne1, hlen, hp, hpre, hprompt]

/-- Witness for the amended C5: a banned fast move with two valid
alternatives, no usable predefined fast move (the predefined record holds
only a weight), and the prompt choosing the first alternative; the chosen
move becomes final, the stream is consumed, and the recording is suppressed
by the predefined record's mere presence. -/
theorem c5_amended_witness :
    (resolveFast {"BAD"}
      [("mon", PokemonEntry.mk "mon" ["BAD", "ALT1", "ALT2"] [])]
      "mon" "BAD"
      ⟨[("mon", OverrideRecord.mk "mon" none none (some 3))], [], [some 1]⟩ =
      Except.ok (some "ALT1",
        ⟨[("mon", OverrideRecord.mk "mon" none none (some 3))], [], []⟩)) ∧
    recordFastChoice [("mon", OverrideRecord.mk "mon" none none (some 3))]
      [] "mon" "ALT1" = [] := by
  have H := c5_amended_prompt_recording {"BAD"}
    [("mon", PokemonEntry.mk "mon" ["BAD", "ALT1", "ALT2"] [])] "mon" "BAD"
    ⟨[("mon", OverrideRecord.mk "mon" none none (some 3))], [], [some 1]⟩
    ⟨"mon", ["BAD", "ALT1", "ALT2"], []⟩ 1 []
    (by decide) (by decide) (by decide) (by decide) (by decide)
  exact ⟨H.1, H.2.1 (by decide)⟩

/-- C5 counterexample: the full session of the witness scenario. The fast
resolver sees two valid alternatives and no usable predefined fast-move
choice (the predefined record holds no `fastMove` key), the disambiguation
prompt returns `ALT1`, which becomes the final fast move — yet the
newly-chosen map stays empty, because the identifier is a key of the
predefined store; the claimed unconditional recording does not happen. -/
theorem c5_counterexample :
    generate_moveset_overrides
      ⟨some [⟨some "id", some ["mon"]⟩],
       some [ExcludeEntry.objE (some "move") (some ["BAD"]) none]⟩
      [⟨"mon", ["BAD", "ALT1", "ALT2"], []⟩]
      [⟨"mon", ["BAD", "C1", "C2"]⟩]
      [("mon", OverrideRecord.mk "mon" none none (some 3))] [] [some 1] =
      Except.ok ([Moveset.mk "mon" "ALT1" ["C1", "C2"] 3],
        ⟨[("mon", OverrideRecord.mk "mon" none none (some 3))], [], []⟩) ∧
    (OverrideRecord.mk "mon" none none (some 3)).fastMove = none := by
  exact ⟨by decide, rfl⟩

/-- C7 amended: whenever a preferred fast move is banned and exactly one
valid alternative exists in the catalog's fast-move pool, resolution
deterministically selects that alternative without consuming any
interactive input — and records the decision as newly chosen exactly when
the lower-cased identifier is not a key of the predefined override store;
any predefined record, with or without a fast move, suppresses the
recording. -/
theorem c7_amended_single_alternative (banned : Finset String)
    (pdata : List (String × PokemonEntry)) (sid fm0 : String) (st : SessState)
    (pokemon : PokemonEntry) (m : String)
    (hb : fm0 ∈ banned)
    (hp : dictGet pdata sid = some pokemon)
    (hv : validAlternativesFast pokemon banned = [m]) :
    resolveFast banned pdata sid fm0 st =
      Except.ok (some m,
        ⟨st.predefined, recordFastChoice st.predefined st.newly sid m,
         st.stream⟩) ∧
    (dictHasKey st.predefined (strLower sid) = true →
      recordFastChoice st.predefined st.newly sid m = st.newly) ∧
    (dictHasKey st.predefined (strLower sid) = false →
      (dictGet (recordFastChoice st.predefined st.newly sid m)
        (strLower sid)).map OverrideRecord.fastMove = some (some m)) := by
  refine ⟨?_, fun hk => recordFastChoice_of_hasKey hk,
    fun hk => recordFastChoice_of_not_hasKey hk⟩
  simp [resolveFast, hb, hp, hv]

/-- Witness for the amended C7: a banned fast move whose pool leaves exactly
the alternative `ALT`; it is auto-selected with no input consumed, and here
the predefined store is empty, so the decision is recorded with `ALT` as the
fast move. -/
theorem c7_amended_witness :
    (resolveFast {"BAD"} [("mon", PokemonEntry.mk "mon" ["BAD", "ALT"] [])]
      "mon" "BAD" ⟨[], [], []⟩ =
      Except.ok (some "ALT",
        ⟨[], recordFastChoice [] [] "mon" "ALT", []⟩)) ∧
    (dictGet (recordFastChoice [] [] "mon" "ALT") (strLower "mon")).map
      OverrideRecord.fastMove = some (some "ALT") := by
  have H := c7_amended_single_alternative {"BAD"}
    [("mon", PokemonEntry.mk "mon" ["BAD", "ALT"] [])] "mon" "BAD"
    ⟨[], [], []⟩ ⟨"mon", ["BAD", "ALT"], []⟩ "ALT"
    (by decide) (by decide) (by decide)
  exact ⟨H.1, H.2.2 (by decide)⟩

/-- C7 counterexample: a full session in which the banned fast move has
exactly one valid alternative and the identifier's predefined record holds
no fast move at all — so no matching predefined fast-move override exists —
and yet no newly chosen decision is recorded, because the code only checks
key membership in the predefined store. -/
theorem c7_counterexample :
    generate_moveset_overrides
      ⟨some [⟨some "id", some ["mon"]⟩],
       some [ExcludeEntry.objE (some "move") (some ["BAD"]) none]⟩
      [⟨"mon", ["BAD", "ALT"], []⟩]
      [⟨"mon", ["BAD", "C1", "C2"]⟩]
      [("mon", OverrideRecord.mk "mon" none none (some 3))] [] [] =
      Except.ok ([Moveset.mk "mon" "ALT" ["C1", "C2"] 3],
        ⟨[("mon", OverrideRecord.mk "mon" none none (some 3))], [], []⟩) ∧
    (OverrideRecord.mk "mon" none none (some 3)).fastMove = none := by
  exact ⟨by decide, rfl⟩

/-! ### Claim C6: predefined full charged-move overrides -/

/-- C6 counterexample: the predefined record carries the full charged-move
override `[]` — trivially none of its moves is banned — yet the emitted
charged moves are the resolved preferred moves `[C1, C2]`, not the override
verbatim: the code tests the override result for truthiness, so an empty
override falls through to slot-by-slot resolution. -/
theorem c6_counterexample :
    generate_moveset_overrides
      ⟨some [⟨some "id", some ["mon"]⟩], none⟩
      [⟨"mon", [], []⟩]
      [⟨"mon", ["F", "C1", "C2"]⟩]
      [("mon", OverrideRecord.mk "mon" none (some []) none)] [] [] =
      Except.ok ([Moveset.mk "mon" "F" ["C1", "C2"] 1],
        ⟨[("mon", OverrideRecord.mk "mon" none (some []) none)], [], []⟩) ∧
    (OverrideRecord.mk "mon" none (some []) none).chargedMoves = some [] ∧
    ([] : List String) ≠ ["C1", "C2"] := by
  exact ⟨by decide, rfl, by decide⟩

/-- C6 amended: for every identifier that has a predefined full charged-move
override that is non-empty and none of whose upper-cased moves is banned,
the final charged moves are exactly the override's moves upper-cased, the
preferred charged-move list is ignored entirely (and no interactive input is
consumed), and no new decision — neither charged nor fast — is recorded for
that identifier. -/
theorem c6_amended_full_override (banned : Finset String)
    (pdata : List (String × PokemonEntry)) (sid : String)
    (current : List String) (st : SessState) (od : OverrideRecord)
    (cms : List String)
    (hod : dictGet st.predefined (strLower sid) = some od)
    (hcm : od.chargedMoves = some cms)
    (hne : cms.map strUpper ≠ [])
    (hnb : ∀ cm ∈ cms.map strUpper, cm ∉ banned) :
    resolveCharged banned pdata sid current st =
      Except.ok (cms.map strUpper, st) ∧
    (∀ (st2 : SessState) (final : List String) (orig : Finset String),
      dictGet st2.predefined (strLower sid) = some od →
      trackNewlyCharged st2 sid final orig = st2) ∧
    (∀ fm : String, recordFastChoice st.predefined st.newly sid fm =
      st.newly) := by
  have hpre : predefChargedOverride st.predefined sid banned =
      cms.map strUpper := by
    simp only [predefChargedOverride, hod, hcm]
    rw [if_pos hnb]
  refine ⟨?_, ?_, ?_⟩
  · simp [resolveCharged, hpre, hne]
  · intro st2 final orig hod2
    unfold trackNewlyCharged
    split
    · simp [hod2, hcm]
    · rfl
  · intro fm
    have hk : dictHasKey st.predefined (strLower sid) = true := by
      simp [dictHasKey, hod]
    exact recordFastChoice_of_hasKey hk

/-- Witness for the amended C6: a predefined override `[CM1, CM2]` with
nothing banned is used verbatim, the preferred list `[X]` is ignored, and
neither tracking nor fast recording touches the newly-chosen map. -/
theorem c6_amended_witness :
    (resolveCharged ∅ [] "mon" ["X"]
      ⟨[("mon", OverrideRecord.mk "mon" none (some ["CM1", "CM2"]) none)],
       [], []⟩ =
      Except.ok (["CM1", "CM2"],
        ⟨[("mon", OverrideRecord.mk "mon" none (some ["CM1", "CM2"]) none)],
         [], []⟩)) ∧
    trackNewlyCharged
      ⟨[("mon", OverrideRecord.mk "mon" none (some ["CM1", "CM2"]) none)],
       [], []⟩ "mon" ["C1"] ∅ =
      ⟨[("mon", OverrideRecord.mk "mon" none (some ["CM1", "CM2"]) none)],
       [], []⟩ ∧
    recordFastChoice
      [("mon", OverrideRecord.mk "mon" none (some ["CM1", "CM2"]) none)]
      [] "mon" "FM" = [] := by
  have H := c6_amended_full_override ∅ [] "mon" ["X"]
    ⟨[("mon", OverrideRecord.mk "mon" none (some ["CM1", "CM2"]) none)],
     [], []⟩
    (OverrideRecord.mk "mon" none (some ["CM1", "CM2"]) none) ["CM1", "CM2"]
    (by decide) rfl (by decide) (by decide)
  exact ⟨H.1,
    H.2.1 ⟨[("mon", OverrideRecord.mk "mon" none (some ["CM1", "CM2"]) none)],
      [], []⟩ ["C1"] ∅ (by decide),
    H.2.2 "FM"⟩

/-! ### Claim C4: end of input at the interactive prompt -/

/-- C4, behaviour of the source at the failing input: a session that needs a
replacement chosen among two alternatives while the input stream is already
at end of input reaches the `promptEOFLoop` outcome — no output list is
produced, but not through an abort: the source catches `EOFError` together
with `ValueError` and continues, `input()` raises `EOFError` again on the
next iteration with the loop variable `choice` unchanged, so the guard
`choice < 1 or choice > 2` holds after every iteration and the loop never
terminates. The last conjunct records the true half of the claim: on merely
invalid input the loop reprompts until a valid choice succeeds. -/
theorem c4_eof_loops_forever :
    (generate_moveset_overrides
        ⟨some [⟨some "id", some ["mon"]⟩],
         some [ExcludeEntry.objE (some "move") (some ["BAD"]) none]⟩
        [⟨"mon", ["BAD", "A1", "A2"], []⟩]
        [⟨"mon", ["BAD", "C"]⟩] [] [] [] =
      Except.error GenErr.promptEOFLoop) ∧
    promptLoop 2 [] = none ∧
    (∀ k : Nat, promptIterAtEOF^[k] (-1) < 1 ∨
      (2 : Int) < promptIterAtEOF^[k] (-1)) ∧
    promptLoop 2 [none, some 5, some 0, some 2] = some (2, []) := by
  refine ⟨by decide, rfl, ?_, by decide⟩
  intro k
  left
  have hfix : promptIterAtEOF^[k] (-1) = -1 :=
    Function.iterate_fixed rfl k
  omega
